import Mathlib

/-!
Verification of the SecureCloudX hybrid AES / blockchain / ECC storage system.

Shallow embedding of the Python sources:
  modules/aes_encryption.py, modules/ecc_crypto.py, modules/blockchain.py,
  modules/database.py and the startup logic of app/main.py.

Byte strings are modelled as `List Nat` (each element a byte value < 256).
The AES block-cipher primitive and the elliptic-curve primitives live in
external libraries (PyCryptodome / cryptography); they are taken as
parameters subject to the contracts those libraries guarantee (a block
cipher is a length-preserving permutation of 16-byte blocks; ECDH is
symmetric).  Everything the repository itself implements — padding wiring,
CBC/CFB modes as used, base64 transport, the envelope wire format, the
block/chain data model, validation, persistence and the bootstrap
decision logic — is embedded concretely below.
-/

namespace SecureCloudX

/-! ## Base64 transport (contract of Python's `base64.b64encode` / `b64decode`) -/

def b64Alphabet : List Char :=
  String.toList ("ABCDEFGHIJKLMNOPQRSTUVWXYZabcdefghijklmnopqrstuvwxyz0123456789+/")

/-- The character used for a 6-bit group (value < 64). -/
def sextetChar (n : Nat) : Char := b64Alphabet.getD n '='

/-- Inverse of `sextetChar` on the alphabet. -/
def charSextet (c : Char) : Nat := b64Alphabet.indexOf c

/-- Encode a byte list (3 bytes to 4 characters, trailing groups padded
with the character written \x3d). -/
def b64encodeChars : List Nat → List Char
  | [] => []
  | [a] => [sextetChar (a / 4), sextetChar (a % 4 * 16), '=', '=']
  | [a, b] =>
      [sextetChar (a / 4), sextetChar (a % 4 * 16 + b / 16), sextetChar (b % 16 * 4), '=']
  | a :: b :: c :: rest =>
      sextetChar (a / 4) :: sextetChar (a % 4 * 16 + b / 16) ::
        sextetChar (b % 16 * 4 + c / 64) :: sextetChar (c % 64) :: b64encodeChars rest

/-- Decode 4 characters to 3 bytes, handling the padded trailing groups. -/
def b64decodeChars : List Char → List Nat
  | c1 :: c2 :: c3 :: c4 :: rest =>
      if c3 = '=' then
        [charSextet c1 * 4 + charSextet c2 / 16]
      else if c4 = '=' then
        [charSextet c1 * 4 + charSextet c2 / 16,
         charSextet c2 % 16 * 16 + charSextet c3 / 4]
      else
        (charSextet c1 * 4 + charSextet c2 / 16) ::
          (charSextet c2 % 16 * 16 + charSextet c3 / 4) ::
          (charSextet c3 % 4 * 64 + charSextet c4) :: b64decodeChars rest
  | _ => []

def b64encode (l : List Nat) : String := String.mk (b64encodeChars l)

def b64decode (s : String) : List Nat := b64decodeChars s.toList

theorem charSextet_sextetChar : ∀ n, n < 64 → charSextet (sextetChar n) = n := by decide

theorem sextetChar_ne_pad : ∀ n, n < 64 → sextetChar n ≠ '=' := by decide

theorem b64decodeChars_encodeChars :
    ∀ l : List Nat, (∀ x ∈ l, x < 256) → b64decodeChars (b64encodeChars l) = l := by
  intro l
  induction l using b64encodeChars.induct with
  | case1 =>
      intro _
      simp [b64encodeChars, b64decodeChars]
  | case2 a =>
      intro h
      have ha : a < 256 := h a (by simp)
      have h1 : a / 4 < 64 := by omega
      have h2 : a % 4 * 16 < 64 := by omega
      simp [b64encodeChars, b64decodeChars,
        charSextet_sextetChar _ h1, charSextet_sextetChar _ h2]
      omega
  | case3 a b =>
      intro h
      have ha : a < 256 := h a (by simp)
      have hb : b < 256 := h b (by simp)
      have h1 : a / 4 < 64 := by omega
      have h2 : a % 4 * 16 + b / 16 < 64 := by omega
      have h3 : b % 16 * 4 < 64 := by omega
      simp [b64encodeChars, b64decodeChars, sextetChar_ne_pad _ h3,
        charSextet_sextetChar _ h1, charSextet_sextetChar _ h2,
        charSextet_sextetChar _ h3]
      omega
  | case4 a b c rest ih =>
      intro h
      have ha : a < 256 := h a (by simp)
      have hb : b < 256 := h b (by simp)
      have hc : c < 256 := h c (by simp)
      have h1 : a / 4 < 64 := by omega
      have h2 : a % 4 * 16 + b / 16 < 64 := by omega
      have h3 : b % 16 * 4 + c / 64 < 64 := by omega
      have h4 : c % 64 < 64 := by omega
      have hrest := ih (fun x hx => h x (by simp [hx]))
      simp [b64encodeChars, b64decodeChars, sextetChar_ne_pad _ h3,
        sextetChar_ne_pad _ h4, charSextet_sextetChar _ h1,
        charSextet_sextetChar _ h2, charSextet_sextetChar _ h3,
        charSextet_sextetChar _ h4, hrest]
      omega

theorem b64decode_encode (l : List Nat) (h : ∀ x ∈ l, x < 256) :
    b64decode (b64encode l) = l := by
  have : (b64encode l).toList = b64encodeChars l := rfl
  rw [b64decode, this, b64decodeChars_encodeChars l h]

/-! ## PKCS7 padding (contract of PyCryptodome's `Crypto.Util.Padding.pad`/`unpad`,
block size 16 as used by `aes_encryption.py`) -/

def pkcs7pad (l : List Nat) : List Nat :=
  l ++ List.replicate (16 - l.length % 16) (16 - l.length % 16)

def pkcs7unpad (l : List Nat) : Option (List Nat) :=
  match l.getLast? with
  | none => none
  | some p =>
      if p = 0 ∨ 16 < p ∨ l.length < p ∨ l.length % 16 ≠ 0 then none
      else if l.drop (l.length - p) = List.replicate p p then
        some (l.take (l.length - p))
      else none

theorem getLast?_replicate (n : Nat) (x : α) (h : n ≠ 0) :
    (List.replicate n x).getLast? = some x := by
  induction n with
  | zero => exact absurd rfl h
  | succ m ih =>
      cases m with
      | zero => rfl
      | succ k =>
          rw [List.replicate_succ, List.replicate_succ, List.getLast?_cons_cons,
            ← List.replicate_succ, ih (by omega)]

theorem pkcs7pad_length_mod (l : List Nat) : (pkcs7pad l).length % 16 = 0 := by
  have : l.length % 16 < 16 := Nat.mod_lt _ (by omega)
  simp only [pkcs7pad, List.length_append, List.length_replicate]
  omega

theorem pkcs7unpad_pad (l : List Nat) : pkcs7unpad (pkcs7pad l) = some l := by
  have hlt : l.length % 16 < 16 := Nat.mod_lt _ (by omega)
  set p := 16 - l.length % 16 with hp
  have hp1 : p ≠ 0 := by omega
  have hlast : (pkcs7pad l).getLast? = some p := by
    rw [pkcs7pad, List.getLast?_append, getLast?_replicate _ _ hp1]
    rfl
  have hlen : (pkcs7pad l).length = l.length + p := by
    simp [pkcs7pad]
  have hmod := pkcs7pad_length_mod l
  simp only [pkcs7unpad, hlast]
  rw [if_neg (by omega)]
  have hsub : (pkcs7pad l).length - p = l.length := by omega
  rw [hsub, pkcs7pad, List.drop_left, List.take_left, if_pos rfl]

/-! ## Byte-wise xor and block chunking -/

def xorBytes (a b : List Nat) : List Nat := List.zipWith (fun x y => x ^^^ y) a b

theorem xorBytes_xorBytes (a b : List Nat) (h : a.length ≤ b.length) :
    xorBytes (xorBytes a b) b = a := by
  induction a generalizing b with
  | nil => simp [xorBytes]
  | cons x xs ih =>
      cases b with
      | nil => simp at h
      | cons y ys =>
          have h' : xs.length ≤ ys.length := by simpa using h
          simp only [xorBytes, List.zipWith_cons_cons] at *
          rw [Nat.xor_cancel_right, ih ys h']

theorem length_xorBytes (a b : List Nat) :
    (xorBytes a b).length = min a.length b.length := by
  simp [xorBytes]

theorem mem_xorBytes_lt (a b : List Nat) (ha : ∀ x ∈ a, x < 256)
    (hb : ∀ x ∈ b, x < 256) : ∀ x ∈ xorBytes a b, x < 256 := by
  induction a generalizing b with
  | nil => simp [xorBytes]
  | cons x xs ih =>
      cases b with
      | nil => simp [xorBytes]
      | cons y ys =>
          intro z hz
          simp only [xorBytes, List.zipWith_cons_cons, List.mem_cons] at hz
          rcases hz with hz | hz
          · subst hz
            have : (256 : Nat) = 2 ^ 8 := by norm_num
            rw [this]
            exact Nat.xor_lt_two_pow (by simpa using ha x (by simp))
              (by simpa using hb y (by simp))
          · exact ih ys (fun u hu => ha u (List.mem_cons_of_mem _ hu))
              (fun u hu => hb u (List.mem_cons_of_mem _ hu)) z hz

/-- Split a byte list into 16-byte blocks (the shape in which the CBC layer of
`aes_encryption.py` consumes its input). -/
def toBlocks (l : List Nat) : List (List Nat) :=
  if l = [] then [] else l.take 16 :: toBlocks (l.drop 16)
termination_by l.length
decreasing_by
  rename_i h
  have : l.length ≠ 0 := fun hh => h (List.eq_nil_of_length_eq_zero hh)
  simp [List.length_drop]
  omega

theorem flatten_toBlocks (l : List Nat) : (toBlocks l).flatten = l := by
  induction l using toBlocks.induct with
  | case1 => simp [toBlocks]
  | case2 l h ih =>
      rw [toBlocks, if_neg h]
      simp [ih]

theorem toBlocks_length_eq (l : List Nat) (h : l.length % 16 = 0) :
    ∀ b ∈ toBlocks l, b.length = 16 := by
  induction l using toBlocks.induct with
  | case1 => simp [toBlocks]
  | case2 l hl ih =>
      have hne : l.length ≠ 0 := fun hh => hl (List.eq_nil_of_length_eq_zero hh)
      have h16 : 16 ≤ l.length := by omega
      intro b hb
      rw [toBlocks, if_neg hl] at hb
      rcases List.mem_cons.1 hb with hb | hb
      · subst hb
        simp [List.length_take]
        omega
      · exact ih (by simp [List.length_drop]; omega) b hb

theorem toBlocks_flatten (bs : List (List Nat)) (h : ∀ b ∈ bs, b.length = 16) :
    toBlocks bs.flatten = bs := by
  induction bs with
  | nil => simp [toBlocks]
  | cons b rest ih =>
      have hb : b.length = 16 := h b (by simp)
      have hbne : b ++ rest.flatten ≠ [] := by
        intro hh
        have := congrArg List.length hh
        simp [hb] at this
      rw [List.flatten_cons, toBlocks, if_neg hbne]
      have ht : (b ++ rest.flatten).take 16 = b := by
        rw [← hb]; exact List.take_left _ _
      have hd : (b ++ rest.flatten).drop 16 = rest.flatten := by
        rw [← hb]; exact List.drop_left _ _
      rw [ht, hd, ih (fun x hx => h x (by simp [hx]))]

/-- A byte string: every element is a byte value. -/
def Bytes (l : List Nat) : Prop := ∀ x ∈ l, x < 256

instance (l : List Nat) : Decidable (Bytes l) :=
  inferInstanceAs (Decidable (∀ x ∈ l, x < 256))

theorem bytes_pkcs7pad (l : List Nat) (h : Bytes l) : Bytes (pkcs7pad l) := by
  intro x hx
  rcases List.mem_append.1 hx with hx | hx
  · exact h x hx
  · have := List.eq_of_mem_replicate hx
    omega

theorem toBlocks_subset (l : List Nat) : ∀ b ∈ toBlocks l, ∀ x ∈ b, x ∈ l := by
  induction l using toBlocks.induct with
  | case1 => simp [toBlocks]
  | case2 l hl ih =>
      intro b hb x hx
      rw [toBlocks, if_neg hl] at hb
      rcases List.mem_cons.1 hb with hb | hb
      · exact List.mem_of_mem_take (hb ▸ hx)
      · exact List.mem_of_mem_drop (ih b hb x hx)

theorem length_flatten_mod (bs : List (List Nat)) (h : ∀ b ∈ bs, b.length = 16) :
    bs.flatten.length % 16 = 0 := by
  induction bs with
  | nil => simp
  | cons b rest ih =>
      have hb := h b (by simp)
      have := ih (fun x hx => h x (by simp [hx]))
      simp only [List.flatten_cons, List.length_append, hb]
      omega

/-! ## CBC mode (how `AES.new(key, AES.MODE_CBC, iv)` chains blocks in
`aes_encryption.py`; the per-block cipher `E`/`D` is the AES-256 primitive of
the PyCryptodome library, a length-preserving permutation of byte blocks) -/

def cbcEncrypt (E : List Nat → List Nat) (prev : List Nat) :
    List (List Nat) → List (List Nat)
  | [] => []
  | b :: rest =>
      let c := E (xorBytes b prev)
      c :: cbcEncrypt E c rest

def cbcDecrypt (D : List Nat → List Nat) (prev : List Nat) :
    List (List Nat) → List (List Nat)
  | [] => []
  | c :: rest => xorBytes (D c) prev :: cbcDecrypt D c rest

theorem cbcEncrypt_spec (E : List Nat → List Nat)
    (hElen : ∀ b, Bytes b → (E b).length = b.length)
    (hEbytes : ∀ b, Bytes b → Bytes (E b)) :
    ∀ (bs : List (List Nat)) (prev : List Nat),
      (∀ b ∈ bs, Bytes b ∧ b.length = 16) → Bytes prev → prev.length = 16 →
      ∀ c ∈ cbcEncrypt E prev bs, Bytes c ∧ c.length = 16 := by
  intro bs
  induction bs with
  | nil => simp [cbcEncrypt]
  | cons b rest ih =>
      intro prev hbs hprev hprevlen c hc
      obtain ⟨hbB, hbL⟩ := hbs b (by simp)
      have hxB : Bytes (xorBytes b prev) := mem_xorBytes_lt _ _ hbB hprev
      have hxL : (xorBytes b prev).length = 16 := by
        rw [length_xorBytes, hbL, hprevlen]; simp
      have hcB : Bytes (E (xorBytes b prev)) := hEbytes _ hxB
      have hcL : (E (xorBytes b prev)).length = 16 := by
        rw [hElen _ hxB, hxL]
      simp only [cbcEncrypt, List.mem_cons] at hc
      rcases hc with hc | hc
      · exact hc ▸ ⟨hcB, hcL⟩
      · exact ih _ (fun x hx => hbs x (by simp [hx])) hcB hcL c hc

theorem cbcDecrypt_cbcEncrypt (E D : List Nat → List Nat)
    (hElen : ∀ b, Bytes b → (E b).length = b.length)
    (hEbytes : ∀ b, Bytes b → Bytes (E b))
    (hDE : ∀ b, Bytes b → D (E b) = b) :
    ∀ (bs : List (List Nat)) (prev : List Nat),
      (∀ b ∈ bs, Bytes b ∧ b.length = 16) → Bytes prev → prev.length = 16 →
      cbcDecrypt D prev (cbcEncrypt E prev bs) = bs := by
  intro bs
  induction bs with
  | nil => simp [cbcEncrypt, cbcDecrypt]
  | cons b rest ih =>
      intro prev hbs hprev hprevlen
      obtain ⟨hbB, hbL⟩ := hbs b (by simp)
      have hxB : Bytes (xorBytes b prev) := mem_xorBytes_lt _ _ hbB hprev
      have hxL : (xorBytes b prev).length = 16 := by
        rw [length_xorBytes, hbL, hprevlen]; simp
      have hcB : Bytes (E (xorBytes b prev)) := hEbytes _ hxB
      have hcL : (E (xorBytes b prev)).length = 16 := by
        rw [hElen _ hxB, hxL]
      simp only [cbcEncrypt, cbcDecrypt]
      rw [hDE _ hxB, xorBytes_xorBytes b prev (by omega),
        ih _ (fun x hx => hbs x (by simp [hx])) hcB hcL]

/-! ## `modules/aes_encryption.py` -/

/-- `encrypt_file` of `aes_encryption.py`: checks the key is 32 bytes, pads the
file content with PKCS7, encrypts it in CBC mode under the supplied IV, and
returns the base64-coded ciphertext and IV.  The file read and the random IV
draw are externalized: `plaintext` is the file's content and `iv` the drawn IV.
`E` is the AES-256 block-encryption primitive of the library. -/
def encrypt_file (E : List Nat → List Nat → List Nat) (plaintext key iv : List Nat) :
    Option (String × String) :=
  if key.length ≠ 32 then none
  else some
    (b64encode ((cbcEncrypt (E key) iv (toBlocks (pkcs7pad plaintext))).flatten),
     b64encode iv)

/-- `decrypt_file` of `aes_encryption.py`: checks the key, base64-decodes the
ciphertext and IV, CBC-decrypts and unpads.  `D` is the library's AES-256
block-decryption primitive; a ciphertext that is not a whole number of blocks
makes the library cipher raise, hence `none`. -/
def decrypt_file (D : List Nat → List Nat → List Nat) (encrypted_data : String)
    (key : List Nat) (iv : String) : Option (List Nat) :=
  if key.length ≠ 32 then none
  else
    let ciphertext := b64decode encrypted_data
    let iv_bytes := b64decode iv
    if ciphertext.length % 16 ≠ 0 then none
    else pkcs7unpad ((cbcDecrypt (D key) iv_bytes (toBlocks ciphertext)).flatten)

theorem encrypt_file_eq (E : List Nat → List Nat → List Nat)
    (plaintext key iv : List Nat) (hkey : key.length = 32) :
    encrypt_file E plaintext key iv =
      some (b64encode ((cbcEncrypt (E key) iv (toBlocks (pkcs7pad plaintext))).flatten),
        b64encode iv) := by
  rw [encrypt_file, if_neg (by omega)]

/-- C2.  For every 32-byte key and every byte payload (the input file's
content), decrypting what encryption produced — using the returned ciphertext
and IV and the same key — yields exactly the payload.  `E`/`D` are the
library's AES-256 block encryption/decryption, assumed (as the library
guarantees) length-preserving, byte-valued, and mutually inverse on byte
blocks under the same key; the IV is the 16-byte random value drawn inside
`encrypt_file`. -/
theorem aes_encrypt_decrypt_roundtrip (E D : List Nat → List Nat → List Nat)
    (plaintext key iv : List Nat)
    (hkey : key.length = 32) (hplain : Bytes plaintext)
    (hiv : Bytes iv) (hivlen : iv.length = 16)
    (hElen : ∀ b, Bytes b → (E key b).length = b.length)
    (hEbytes : ∀ b, Bytes b → Bytes (E key b))
    (hDE : ∀ b, Bytes b → D key (E key b) = b) :
    ∃ ct ivs, encrypt_file E plaintext key iv = some (ct, ivs) ∧
      decrypt_file D ct key ivs = some plaintext := by
  set blocks := toBlocks (pkcs7pad plaintext) with hblocksdef
  set cblocks := cbcEncrypt (E key) iv blocks with hcblocksdef
  have hpadB : Bytes (pkcs7pad plaintext) := bytes_pkcs7pad _ hplain
  have hblocks : ∀ b ∈ blocks, Bytes b ∧ b.length = 16 := by
    intro b hb
    constructor
    · intro x hx
      exact hpadB x (toBlocks_subset _ b hb x hx)
    · exact toBlocks_length_eq _ (pkcs7pad_length_mod plaintext) b hb
  have hcblocks : ∀ c ∈ cblocks, Bytes c ∧ c.length = 16 :=
    cbcEncrypt_spec (E key) hElen hEbytes blocks iv hblocks hiv hivlen
  have hctB : Bytes cblocks.flatten := by
    intro x hx
    obtain ⟨c, hc, hxc⟩ := List.mem_flatten.1 hx
    exact (hcblocks c hc).1 x hxc
  refine ⟨_, _, encrypt_file_eq E plaintext key iv hkey, ?_⟩
  rw [decrypt_file, if_neg (by omega)]
  simp only [b64decode_encode _ hctB, b64decode_encode _ hiv]
  rw [if_neg (by
    simp only [ne_eq, Decidable.not_not]
    exact length_flatten_mod _ (fun b hb => (hcblocks b hb).2))]
  rw [toBlocks_flatten _ (fun b hb => (hcblocks b hb).2), hcblocksdef,
    cbcDecrypt_cbcEncrypt (E key) (D key) hElen hEbytes hDE blocks iv hblocks hiv hivlen,
    hblocksdef, flatten_toBlocks, pkcs7unpad_pad]

/-- Witness for C2 at a concrete input: the identity block cipher (a valid
byte-block permutation pair), the all-zero 32-byte key, the all-zero IV and
the payload bytes of "Hi". -/
theorem aes_encrypt_decrypt_roundtrip_witness :
    (List.replicate 32 0).length = 32 ∧
    Bytes [72, 105] ∧ Bytes (List.replicate 16 0) ∧
    (List.replicate 16 0).length = 16 ∧
    (∀ b, Bytes b → ((fun (_ : List Nat) (x : List Nat) => x) (List.replicate 32 0) b).length = b.length) ∧
    (∀ b, Bytes b → Bytes ((fun (_ : List Nat) (x : List Nat) => x) (List.replicate 32 0) b)) ∧
    (∀ b, Bytes b →
      (fun (_ : List Nat) (x : List Nat) => x) (List.replicate 32 0)
        ((fun (_ : List Nat) (x : List Nat) => x) (List.replicate 32 0) b) = b) ∧
    (∃ ct ivs,
      encrypt_file (fun _ x => x) [72, 105] (List.replicate 32 0) (List.replicate 16 0) =
        some (ct, ivs) ∧
      decrypt_file (fun _ x => x) ct (List.replicate 32 0) ivs = some [72, 105]) :=
  ⟨by decide, by decide, by decide, by decide,
   fun _ _ => rfl, fun _ hb => hb, fun _ _ => rfl,
   aes_encrypt_decrypt_roundtrip (fun _ x => x) (fun _ x => x)
     [72, 105] (List.replicate 32 0) (List.replicate 16 0)
     (by decide) (by decide) (by decide) (by decide)
     (fun _ _ => rfl) (fun _ hb => hb) (fun _ _ => rfl)⟩

/-! ## CFB mode (how `modes.CFB(iv)` is used by `ecc_crypto.py`; full 128-bit
segments, keystream produced by the forward block primitive only) -/

def cfbEncrypt (Ek : List Nat → List Nat) (prev data : List Nat) : List Nat :=
  if data = [] then []
  else
    let c := xorBytes (data.take 16) (Ek prev)
    c ++ cfbEncrypt Ek c (data.drop 16)
termination_by data.length
decreasing_by
  rename_i h
  have : data.length ≠ 0 := fun hh => h (List.eq_nil_of_length_eq_zero hh)
  simp [List.length_drop]
  omega

def cfbDecrypt (Ek : List Nat → List Nat) (prev ct : List Nat) : List Nat :=
  if ct = [] then []
  else xorBytes (ct.take 16) (Ek prev) ++ cfbDecrypt Ek (ct.take 16) (ct.drop 16)
termination_by ct.length
decreasing_by
  rename_i h
  have : ct.length ≠ 0 := fun hh => h (List.eq_nil_of_length_eq_zero hh)
  simp [List.length_drop]
  omega

theorem cfbDecrypt_cfbEncrypt_aux (Ek : List Nat → List Nat)
    (hlen : ∀ b, (Ek b).length = 16) :
    ∀ (n : Nat) (d prev : List Nat), d.length ≤ n →
      cfbDecrypt Ek prev (cfbEncrypt Ek prev d) = d := by
  intro n
  induction n with
  | zero =>
      intro d prev hd
      have : d = [] := List.eq_nil_of_length_eq_zero (by omega)
      subst this
      simp [cfbEncrypt, cfbDecrypt]
  | succ m ih =>
      intro d prev hd
      by_cases hdn : d = []
      · subst hdn; simp [cfbEncrypt, cfbDecrypt]
      · have hdlen : d.length ≠ 0 := fun hh => hdn (List.eq_nil_of_length_eq_zero hh)
        rw [cfbEncrypt, if_neg hdn]
        set c := xorBytes (d.take 16) (Ek prev) with hc
        have hclen : c.length = min d.length 16 := by
          rw [hc, length_xorBytes, List.length_take, hlen]
          omega
        have hcne : c ≠ [] := by
          intro hh
          have h0 := congrArg List.length hh
          rw [hclen] at h0
          simp only [List.length_nil] at h0
          omega
        have htake : (c ++ cfbEncrypt Ek c (d.drop 16)).take 16 = c := by
          by_cases h16 : 16 ≤ d.length
          · have : c.length = 16 := by omega
            rw [← this, List.take_left]
          · have hdrop : d.drop 16 = [] := by
              apply List.eq_nil_of_length_eq_zero
              simp [List.length_drop]
              omega
            rw [hdrop, cfbEncrypt, if_pos rfl, List.append_nil,
              List.take_of_length_le (by omega)]
        have hdrop2 : (c ++ cfbEncrypt Ek c (d.drop 16)).drop 16 =
            cfbEncrypt Ek c (d.drop 16) := by
          by_cases h16 : 16 ≤ d.length
          · have : c.length = 16 := by omega
            rw [← this, List.drop_left]
          · have hdrop : d.drop 16 = [] := by
              apply List.eq_nil_of_length_eq_zero
              simp [List.length_drop]
              omega
            rw [hdrop, cfbEncrypt, if_pos rfl, List.append_nil,
              List.drop_eq_nil_of_le (by omega)]
        rw [cfbDecrypt, if_neg (by simp [hcne]), htake, hdrop2, hc,
          xorBytes_xorBytes _ _ (by rw [List.length_take, hlen]; omega)]
        rw [ih (d.drop 16) _ (by simp [List.length_drop]; omega)]
        exact List.take_append_drop 16 d

theorem cfbDecrypt_cfbEncrypt (Ek : List Nat → List Nat)
    (hlen : ∀ b, (Ek b).length = 16) (d prev : List Nat) :
    cfbDecrypt Ek prev (cfbEncrypt Ek prev d) = d :=
  cfbDecrypt_cfbEncrypt_aux Ek hlen d.length d prev (le_refl _)

theorem bytes_cfbEncrypt_aux (Ek : List Nat → List Nat)
    (hB : ∀ b, Bytes (Ek b)) :
    ∀ (n : Nat) (d prev : List Nat), d.length ≤ n → Bytes d →
      Bytes (cfbEncrypt Ek prev d) := by
  intro n
  induction n with
  | zero =>
      intro d prev hd _
      have : d = [] := List.eq_nil_of_length_eq_zero (by omega)
      subst this
      simp [cfbEncrypt, Bytes]
  | succ m ih =>
      intro d prev hd hdB
      by_cases hdn : d = []
      · subst hdn; simp [cfbEncrypt, Bytes]
      · have hdlen : d.length ≠ 0 := fun hh => hdn (List.eq_nil_of_length_eq_zero hh)
        rw [cfbEncrypt, if_neg hdn]
        intro x hx
        rcases List.mem_append.1 hx with hx | hx
        · exact mem_xorBytes_lt _ _ (fun u hu => hdB u (List.mem_of_mem_take hu))
            (hB prev) x hx
        · exact ih (d.drop 16) _ (by simp [List.length_drop]; omega)
            (fun u hu => hdB u (List.mem_of_mem_drop hu)) x hx

/-! ## Big-endian 4-byte length (Python `len(...).to_bytes(4, 'big')` /
`int.from_bytes(package[:4], 'big')`) -/

def toBytesBE4 (n : Nat) : List Nat :=
  [n / 16777216 % 256, n / 65536 % 256, n / 256 % 256, n % 256]

def fromBytesBE4 (l : List Nat) : Nat :=
  match l with
  | [a, b, c, d] => ((a * 256 + b) * 256 + c) * 256 + d
  | _ => 0

theorem fromBytesBE4_toBytesBE4 (n : Nat) (h : n < 4294967296) :
    fromBytesBE4 (toBytesBE4 n) = n := by
  simp only [toBytesBE4, fromBytesBE4]
  omega

theorem bytes_toBytesBE4 (n : Nat) : Bytes (toBytesBE4 n) := by
  intro x hx
  simp [toBytesBE4] at hx
  rcases hx with h | h | h | h <;> omega

/-! ## `modules/ecc_crypto.py`

The elliptic-curve primitives of the `cryptography` library are collected in
`ECCPrims`: `pubOf` derives a PEM public key from a PEM private key (key
generation / serialization), `exchange` is the ECDH shared-secret computation
between a private and a public PEM key, `hkdf` is HKDF-SHA256 keyed by the
`info` context bytes, and `blockEnc` is AES block encryption under a derived
key (the only direction CFB mode uses).  PEM keys and secrets are byte
strings. -/

structure ECCPrims where
  pubOf : List Nat → List Nat
  exchange : List Nat → List Nat → List Nat
  hkdf : List Nat → List Nat → List Nat
  blockEnc : List Nat → List Nat → List Nat

/-- The fixed HKDF context string, identical in both directions of the code:
the bytes of "aes-key-encryption". -/
def hkdf_info : List Nat := (String.toList ("aes-key-encryption")).map Char.toNat

/-- `encrypt_aes_key_with_ecc` of `ecc_crypto.py`: ECDH with a fresh ephemeral
key against the recipient's public key, HKDF-SHA256 with the fixed info
string, CFB encryption of the AES key under a fresh 16-byte IV, then the
package `len(ephemeral_pem) (4 bytes BE) || ephemeral_pem || iv || ciphertext`
base64-coded.  The ephemeral private key and the IV, drawn randomly inside
the function, are externalized as arguments. -/
def encrypt_aes_key_with_ecc (P : ECCPrims) (aes_key : List Nat)
    (recipient_public_key_pem : List Nat)
    (ephemeral_private_key iv : List Nat) : String :=
  let shared_secret := P.exchange ephemeral_private_key recipient_public_key_pem
  let derived_key := P.hkdf hkdf_info shared_secret
  let encrypted_aes_key := cfbEncrypt (P.blockEnc derived_key) iv aes_key
  let ephemeral_public_pem := P.pubOf ephemeral_private_key
  b64encode (toBytesBE4 ephemeral_public_pem.length ++
    (ephemeral_public_pem ++ (iv ++ encrypted_aes_key)))

/-- `decrypt_aes_key_with_ecc` of `ecc_crypto.py`: base64-decode, split the
package into the length-prefixed ephemeral public key, 16-byte IV and
ciphertext, redo ECDH from the recipient's private key, HKDF with the same
info string, and CFB-decrypt. -/
def decrypt_aes_key_with_ecc (P : ECCPrims) (encrypted_package : String)
    (private_key_pem : List Nat) : List Nat :=
  let package := b64decode encrypted_package
  let ephemeral_key_length := fromBytesBE4 (package.take 4)
  let ephemeral_public_pem := (package.drop 4).take ephemeral_key_length
  let iv := (package.drop (4 + ephemeral_key_length)).take 16
  let encrypted_aes_key := package.drop (4 + ephemeral_key_length + 16)
  let shared_secret := P.exchange private_key_pem ephemeral_public_pem
  let derived_key := P.hkdf hkdf_info shared_secret
  cfbDecrypt (P.blockEnc derived_key) iv encrypted_aes_key

/-- C3.  For every P-256 keypair (pub, priv) (with `pub = pubOf priv` as
`generate_ecc_keypair` produces it) and every 32-byte raw key, unwrapping the
envelope produced by wrapping the key for `pub`, using `priv`, returns exactly
the key's bytes.  The ephemeral private key and IV drawn inside the wrap are
arbitrary; the ECDH symmetry `exchange(priv, pubOf eph) = exchange(eph,
pubOf priv)` is the curve property the code relies on, and `blockEnc` is the
library's AES primitive (16-byte byte-valued blocks). -/
theorem ecc_wrap_unwrap_roundtrip (P : ECCPrims)
    (aes_key recipient_private_key ephemeral_private_key iv : List Nat)
    (hklen : aes_key.length = 32) (hkB : Bytes aes_key)
    (hivlen : iv.length = 16) (hivB : Bytes iv)
    (hpemB : Bytes (P.pubOf ephemeral_private_key))
    (hpemLen : (P.pubOf ephemeral_private_key).length < 4294967296)
    (hsym : P.exchange recipient_private_key (P.pubOf ephemeral_private_key) =
      P.exchange ephemeral_private_key (P.pubOf recipient_private_key))
    (hblockLen : ∀ k b, (P.blockEnc k b).length = 16)
    (hblockB : ∀ k b, Bytes (P.blockEnc k b)) :
    decrypt_aes_key_with_ecc P
      (encrypt_aes_key_with_ecc P aes_key (P.pubOf recipient_private_key)
        ephemeral_private_key iv)
      recipient_private_key = aes_key := by
  set pem := P.pubOf ephemeral_private_key with hpem
  set shared := P.exchange ephemeral_private_key (P.pubOf recipient_private_key)
    with hshared
  set dk := P.hkdf hkdf_info shared with hdk
  set ct := cfbEncrypt (P.blockEnc dk) iv aes_key with hctdef
  set pk := toBytesBE4 pem.length ++ (pem ++ (iv ++ ct)) with hpkdef
  have henc : encrypt_aes_key_with_ecc P aes_key (P.pubOf recipient_private_key)
      ephemeral_private_key iv = b64encode pk := rfl
  have hctB : Bytes ct :=
    bytes_cfbEncrypt_aux (P.blockEnc dk) (fun b => hblockB dk b)
      aes_key.length aes_key iv (le_refl _) hkB
  have hpkB : Bytes pk := by
    intro x hx
    rw [hpkdef] at hx
    rcases List.mem_append.1 hx with hx | hx
    · exact bytes_toBytesBE4 _ x hx
    rcases List.mem_append.1 hx with hx | hx
    · exact hpemB x hx
    rcases List.mem_append.1 hx with hx | hx
    · exact hivB x hx
    · exact hctB x hx
  have hlen4 : (toBytesBE4 pem.length).length = 4 := rfl
  have htake4 : pk.take 4 = toBytesBE4 pem.length := by
    rw [hpkdef, ← hlen4, List.take_left]
  have hfrom : fromBytesBE4 (pk.take 4) = pem.length := by
    rw [htake4, fromBytesBE4_toBytesBE4 _ hpemLen]
  have hdrop4 : pk.drop 4 = pem ++ (iv ++ ct) := by
    rw [hpkdef, ← hlen4, List.drop_left]
  have htakepem : (pk.drop 4).take pem.length = pem := by
    rw [hdrop4, List.take_left]
  have hlen4L : (toBytesBE4 pem.length ++ pem).length = 4 + pem.length := by
    simp [toBytesBE4]
    omega
  have hdropiv : pk.drop (4 + pem.length) = iv ++ ct := by
    rw [hpkdef, ← List.append_assoc, ← hlen4L, List.drop_left]
  have htakeiv : (pk.drop (4 + pem.length)).take 16 = iv := by
    rw [hdropiv, ← hivlen, List.take_left]
  have hlen4L16 : ((toBytesBE4 pem.length ++ pem) ++ iv).length =
      4 + pem.length + 16 := by
    simp [toBytesBE4, hivlen]
    omega
  have hdropct : pk.drop (4 + pem.length + 16) = ct := by
    rw [hpkdef, ← List.append_assoc, ← List.append_assoc, ← hlen4L16,
      List.drop_left]
  rw [henc]
  simp only [decrypt_aes_key_with_ecc]
  rw [b64decode_encode _ hpkB, hfrom, htakepem, hdropct, htakeiv, hsym, ← hdk,
    hctdef, cfbDecrypt_cfbEncrypt _ (fun b => hblockLen dk b)]

/-- A concrete instantiation of the elliptic-curve primitives used to witness
C3: the public key of a private key is the key itself, the shared secret is
the (symmetric) sum of the two keys' bytes, the KDF passes the secret
through, and the block primitive is constant. -/
def eccTestPrims : ECCPrims where
  pubOf := fun p => p
  exchange := fun a b => [(a.sum + b.sum) % 256]
  hkdf := fun _ s => s
  blockEnc := fun _ _ => List.replicate 16 0

/-- Witness for C3 at a concrete input: a 32-byte key of 7s, private keys
[1] (ephemeral) and [2] (recipient), IV of 9s. -/
theorem ecc_wrap_unwrap_roundtrip_witness :
    (List.replicate 32 7).length = 32 ∧ Bytes (List.replicate 32 7) ∧
    (List.replicate 16 9).length = 16 ∧ Bytes (List.replicate 16 9) ∧
    Bytes (eccTestPrims.pubOf [1]) ∧
    (eccTestPrims.pubOf [1]).length < 4294967296 ∧
    eccTestPrims.exchange [2] (eccTestPrims.pubOf [1]) =
      eccTestPrims.exchange [1] (eccTestPrims.pubOf [2]) ∧
    (∀ k b, (eccTestPrims.blockEnc k b).length = 16) ∧
    (∀ k b, Bytes (eccTestPrims.blockEnc k b)) ∧
    decrypt_aes_key_with_ecc eccTestPrims
      (encrypt_aes_key_with_ecc eccTestPrims (List.replicate 32 7)
        (eccTestPrims.pubOf [2]) [1] (List.replicate 16 9)) [2] =
      List.replicate 32 7 :=
  ⟨by decide, by decide, by decide, by decide, by decide, by decide, by decide,
   fun _ _ => rfl,
   fun _ _ x hx => by rw [List.eq_of_mem_replicate hx]; norm_num,
   ecc_wrap_unwrap_roundtrip eccTestPrims (List.replicate 32 7) [2] [1]
     (List.replicate 16 9) (by decide) (by decide) (by decide) (by decide)
     (by decide) (by decide) (by decide) (fun _ _ => rfl)
     (fun _ _ x hx => by rw [List.eq_of_mem_replicate hx]; norm_num)⟩

/-! ## `modules/blockchain.py`

A block's `hash` is SHA-256 over the sorted-key JSON serialization of
`{index, timestamp, data, previous_hash}`.  The serialization composed with
SHA-256 is modelled as one abstract function `H` of the four fields; the
payload dict `data` is modelled by its canonical serialization (a `String`),
and the float timestamp by a `Nat`.  Nothing below depends on a particular
`H`; collision-freeness enters only as an explicit hypothesis where a claim
needs it. -/

def HashFn := Nat → Nat → String → String → String

structure Block where
  index : Nat
  timestamp : Nat
  data : String
  previous_hash : String
  hash : String
deriving DecidableEq

/-- `Block.calculate_hash`. -/
def calculate_hash (H : HashFn) (b : Block) : String :=
  H b.index b.timestamp b.data b.previous_hash

/-- `Block.__init__`: stores the four fields and computes `hash` from them. -/
def mkBlock (H : HashFn) (index timestamp : Nat) (data previous_hash : String) :
    Block :=
  { index := index, timestamp := timestamp, data := data,
    previous_hash := previous_hash, hash := H index timestamp data previous_hash }

/-- The loop body of `Blockchain.validate_chain`, carrying the predecessor:
for each block from position 1 on, check the stored hash against the
recomputation and the back-link against the predecessor's hash. -/
def validateFrom (H : HashFn) (previous_block : Block) : List Block → Bool
  | [] => true
  | current_block :: rest =>
      if current_block.hash ≠ calculate_hash H current_block then false
      else if current_block.previous_hash ≠ previous_block.hash then false
      else validateFrom H current_block rest

/-- `Blockchain.validate_chain`: iterates from index 1; empty and singleton
chains are vacuously valid. -/
def validate_chain (H : HashFn) (chain : List Block) : Bool :=
  match chain with
  | [] => true
  | b :: rest => validateFrom H b rest

/-- The index printed by `validate_chain` at the first failing check
(`Block {i} has been tampered with!` / `Block {i} has invalid
previous_hash!`), `none` when the loop finds nothing. -/
def first_invalid_from (H : HashFn) (previous_block : Block) :
    List Block → Nat → Option Nat
  | [], _ => none
  | current_block :: rest, i =>
      if current_block.hash ≠ calculate_hash H current_block then some i
      else if current_block.previous_hash ≠ previous_block.hash then some i
      else first_invalid_from H current_block rest (i + 1)

def first_invalid_index (H : HashFn) (chain : List Block) : Option Nat :=
  match chain with
  | [] => none
  | b :: rest => first_invalid_from H b rest 1

/-- Replace block `i` of a persisted chain by a block re-derived (hash
recomputed by `Block.__init__`) from altered `data`/`previous_hash` fields. -/
def tamperRederive (H : HashFn) (chain : List Block) (i : Nat)
    (d' p' : String) : List Block :=
  match chain[i]? with
  | none => chain
  | some b => chain.set i (mkBlock H b.index b.timestamp d' p')

/-- `Blockchain.get_latest_block`: `chain[-1]`, an `IndexError` (`none`) on an
empty chain. -/
def get_latest_block (chain : List Block) : Option Block := chain.getLast?

/-- `Blockchain.add_block` without a database: reads the tail (raising on an
empty chain), builds the new block with `index = len(chain)` and
`previous_hash = tail.hash`, appends it. -/
def add_block (H : HashFn) (chain : List Block) (data : String) (t : Nat) :
    Option (Block × List Block) :=
  match chain.getLast? with
  | none => none
  | some previous_block =>
      let new_block := mkBlock H chain.length t data previous_block.hash
      some (new_block, chain ++ [new_block])

/-- `Blockchain.add_block` when a database is configured: the in-memory append
happens first, then `save_block_to_database`; a raising store surfaces the
error after the append.  `save_fails` tells whether the store's put raises. -/
def add_block_with_db (H : HashFn) (chain : List Block) (data : String)
    (t : Nat) (save_fails : Bool) : Option (List Block × Except String Block) :=
  match chain.getLast? with
  | none => none
  | some previous_block =>
      let new_block := mkBlock H chain.length t data previous_block.hash
      let chain' := chain ++ [new_block]
      if save_fails then some (chain', Except.error ("database error"))
      else some (chain', Except.ok new_block)

/-- `Blockchain.create_genesis_block`. -/
def create_genesis_block (H : HashFn) (t : Nat) : Block :=
  mkBlock H 0 t ("Genesis Block - SecureCloudX Blockchain Initialized") ("0")

/-- A persisted block row: the JSON-file dict of `Block.to_dict` and the
database row of `blockchain_blocks` share these five fields. -/
structure StoredBlock where
  index : Nat
  timestamp : Nat
  data : String
  previous_hash : String
  hash : String
deriving DecidableEq

/-- `Block.from_dict`: rebuilds the block through `Block.__init__` (hash
recomputed) and raises — error value the block index — when the recomputed
hash differs from the stored one. -/
def from_dict (H : HashFn) (r : StoredBlock) : Except Nat Block :=
  let block := mkBlock H r.index r.timestamp r.data r.previous_hash
  if block.hash ≠ r.hash then Except.error block.index else Except.ok block

/-- `Blockchain.load_chain_from_database`: fails only when no rows exist;
otherwise rebuilds each block and overrides the computed hash with the stored
one — no recomputation check. -/
def load_chain_from_database (H : HashFn) (rows : List StoredBlock) :
    Option (List Block) :=
  if rows.isEmpty then none
  else some (rows.map fun r =>
    { mkBlock H r.index r.timestamp r.data r.previous_hash with hash := r.hash })

/-- The list comprehension `[Block.from_dict(d) for d in chain_data]`:
left-to-right, the first raise propagating. -/
def map_from_dict (H : HashFn) : List StoredBlock → Except Nat (List Block)
  | [] => Except.ok []
  | r :: rest =>
      match from_dict H r with
      | Except.error i => Except.error i
      | Except.ok b =>
          match map_from_dict H rest with
          | Except.error i => Except.error i
          | Except.ok bs => Except.ok (b :: bs)

/-- `Blockchain.load_chain_from_json`: `none` as file models a missing chain
file.  Each dict goes through `from_dict` (which raises on a hash mismatch;
the exception is caught and reported as a failed load, the chain keeping its
prior value `chain0`).  A loaded chain that fails `validate_chain` is also a
failed load, but stays assigned.  Returns (success, resulting chain). -/
def load_chain_from_json (H : HashFn) (chain0 : List Block)
    (file : Option (List StoredBlock)) : Bool × List Block :=
  match file with
  | none => (false, chain0)
  | some rows =>
      match map_from_dict H rows with
      | Except.error _ => (false, chain0)
      | Except.ok c => (validate_chain H c, c)

/-- `Blockchain.__init__` with no database configured: try the JSON file,
otherwise create the genesis block (appended to whatever the failed load left
in `self.chain`). -/
def blockchain_init_no_db (H : HashFn) (t : Nat)
    (file : Option (List StoredBlock)) : List Block :=
  let r := load_chain_from_json H [] file
  if r.1 then r.2 else r.2 ++ [create_genesis_block H t]

/-- Predicate: a stored row whose recomputed hash differs from its stored
hash. -/
def tampered_row (H : HashFn) (r : StoredBlock) : Bool :=
  H r.index r.timestamp r.data r.previous_hash != r.hash

/-! ## `Database.save_blockchain_block` (`database.py`)

The store is the `blockchain_blocks` table, `block_index` unique; the
operation is the upsert `INSERT ... ON CONFLICT(block_index) DO UPDATE` over
the five payload columns. -/

def save_blockchain_block (store : List StoredBlock) (r : StoredBlock) :
    List StoredBlock :=
  if store.any fun x => x.index == r.index then
    store.map fun x => if x.index == r.index then r else x
  else store ++ [r]

/-! ## Startup repair decision (`app/main.py`, `startup_event`)

After loading and validating the chain the controller decides whether to
clear the persisted blocks and recreate the ledger: only for a non-empty
invalid chain, and then only when on Render holding the cross-process lock,
or unconditionally when not on Render (local development). -/

def startup_repair_clears (render lock_acquired valid : Bool) (n : Nat) :
    Bool :=
  if 0 < n ∧ valid = false then
    if render && lock_acquired then true
    else if !render then true
    else false
  else false

/-- The persisted blocks after the bootstrap decision: cleared exactly when
the controller repairs. -/
def startup_store_after (render lock_acquired valid : Bool)
    (store : List StoredBlock) : List StoredBlock :=
  if startup_repair_clears render lock_acquired valid store.length then []
  else store

/-- A concrete hash function used for witnesses and counterexamples: the
four fields' serialization itself. -/
def testHash : HashFn :=
  fun i t d p => toString i ++ ("|") ++ toString t ++ ("|") ++ d ++ ("|") ++ p

/-! ## Validation lemmas -/

/-- Both checks of the validation loop for a (predecessor, current) pair. -/
def blockOk (H : HashFn) (previous_block current_block : Block) : Prop :=
  current_block.hash = calculate_hash H current_block ∧
  current_block.previous_hash = previous_block.hash

theorem validateFrom_ok (H : HashFn) :
    ∀ (l : List Block) (p : Block), validateFrom H p l = true →
      ∀ (j : Nat) (b c : Block), (p :: l)[j]? = some b → l[j]? = some c →
        blockOk H b c := by
  intro l
  induction l with
  | nil =>
      intro p _ j b c _ hc
      simp at hc
  | cons q rest ih =>
      intro p hv j b c hb hc
      rw [validateFrom] at hv
      by_cases h1 : q.hash ≠ calculate_hash H q
      · rw [if_pos h1] at hv
        exact absurd hv (by simp)
      · rw [if_neg h1] at hv
        by_cases h2 : q.previous_hash ≠ p.hash
        · rw [if_pos h2] at hv
          exact absurd hv (by simp)
        · rw [if_neg h2] at hv
          push_neg at h1 h2
          cases j with
          | zero =>
              rw [List.getElem?_cons_zero] at hb hc
              injection hb with hb
              injection hc with hc
              subst hb
              subst hc
              exact ⟨h1, h2⟩
          | succ j' =>
              rw [List.getElem?_cons_succ] at hb hc
              exact ih q hv j' b c hb hc

theorem first_invalid_from_eq (H : HashFn) :
    ∀ (l : List Block) (p : Block) (i0 k : Nat) (b c : Block),
      (p :: l)[k]? = some b → l[k]? = some c → ¬ blockOk H b c →
      (∀ (j : Nat) (b' c' : Block), j < k → (p :: l)[j]? = some b' →
        l[j]? = some c' → blockOk H b' c') →
      first_invalid_from H p l i0 = some (i0 + k) := by
  intro l
  induction l with
  | nil =>
      intro p i0 k b c _ hc
      simp at hc
  | cons q rest ih =>
      intro p i0 k b c hb hc hnot hlt
      cases k with
      | zero =>
          rw [List.getElem?_cons_zero] at hb hc
          injection hb with hb
          injection hc with hc
          subst hb
          subst hc
          rw [first_invalid_from]
          by_cases h1 : q.hash ≠ calculate_hash H q
          · rw [if_pos h1]
            simp
          · rw [if_neg h1]
            push_neg at h1
            have h2 : q.previous_hash ≠ p.hash := fun h2 => hnot ⟨h1, h2⟩
            rw [if_pos h2]
            simp
      | succ k' =>
          have hok0 : blockOk H p q :=
            hlt 0 p q (by omega) List.getElem?_cons_zero List.getElem?_cons_zero
          rw [first_invalid_from, if_neg (fun hne => hne hok0.1),
            if_neg (fun hne => hne hok0.2)]
          rw [show i0 + (k' + 1) = (i0 + 1) + k' by omega]
          refine ih q (i0 + 1) k' b c (by simpa using hb) (by simpa using hc)
            hnot (fun j b' c' hj hb' hc' => ?_)
          exact hlt (j + 1) b' c' (by omega) (by simpa using hb')
            (by simpa using hc')

theorem validateFrom_iff_first_invalid (H : HashFn) :
    ∀ (l : List Block) (p : Block) (i0 : Nat),
      validateFrom H p l = true ↔ first_invalid_from H p l i0 = none := by
  intro l
  induction l with
  | nil =>
      intro p i0
      simp [validateFrom, first_invalid_from]
  | cons q rest ih =>
      intro p i0
      rw [validateFrom, first_invalid_from]
      by_cases h1 : q.hash ≠ calculate_hash H q
      · rw [if_pos h1, if_pos h1]
        simp
      · rw [if_neg h1, if_neg h1]
        by_cases h2 : q.previous_hash ≠ p.hash
        · rw [if_pos h2, if_pos h2]
          simp
        · rw [if_neg h2, if_neg h2]
          exact ih q (i0 + 1)

theorem validate_chain_ok (H : HashFn) (chain : List Block)
    (hv : validate_chain H chain = true) :
    ∀ (j : Nat) (b c : Block), chain[j]? = some b → chain[j+1]? = some c →
      blockOk H b c := by
  cases chain with
  | nil =>
      intro j b c hb
      simp at hb
  | cons b0 rest =>
      intro j b c hb hc
      exact validateFrom_ok H rest b0 hv j b c hb (by simpa using hc)

theorem first_invalid_index_pair (H : HashFn) (chain : List Block) (k : Nat)
    (b c : Block) (hb : chain[k]? = some b) (hc : chain[k+1]? = some c)
    (hnot : ¬ blockOk H b c)
    (hlt : ∀ (j : Nat) (b' c' : Block), j < k → chain[j]? = some b' →
      chain[j+1]? = some c' → blockOk H b' c') :
    first_invalid_index H chain = some (k + 1) := by
  cases chain with
  | nil => simp at hb
  | cons b0 rest =>
      rw [first_invalid_index]
      have h := first_invalid_from_eq H rest b0 1 k b c hb (by simpa using hc)
        hnot (fun j b' c' hj hb' hc' => hlt j b' c' hj hb' (by simpa using hc'))
      rw [h]
      congr 1
      omega

theorem validate_chain_eq_false_of_first_invalid (H : HashFn)
    (chain : List Block) (k : Nat)
    (h : first_invalid_index H chain = some k) :
    validate_chain H chain = false := by
  cases chain with
  | nil => simp [first_invalid_index] at h
  | cons b0 rest =>
      rw [validate_chain]
      cases hvf : validateFrom H b0 rest
      · rfl
      · exfalso
        have hnone := (validateFrom_iff_first_invalid H rest b0 1).1 hvf
        rw [first_invalid_index, hnone] at h
        exact Option.noConfusion h

/-! ## Concrete fixtures for witnesses and counterexamples -/

def gBlockA : Block := mkBlock testHash 0 0 ("A") ("0")

def blockD : Block := mkBlock testHash 1 0 ("D") (gBlockA.hash)

def cexChain : List Block := [gBlockA, blockD]

/-! ## C1: tamper detection by `validate_chain` -/

/-- C1 (amended).  For a valid persisted chain, replace block `i` by a block
re-derived from altered `(payload, previous_hash)` fields, the altered
serialization hashing differently (no SHA-256 collision).  Then: altering
`previous_hash` of a block `i ≥ 1` makes `validate()` false, the first
reported index being `i` itself; and any alteration of block `i` that leaves
the pair (i-1, i) consistent — a pure payload change, or any change to the
Genesis block — is caught exactly when block `i` has a successor, the first
reported index being `i + 1`. -/
theorem validate_chain_detects_rederived_tamper (H : HashFn)
    (chain : List Block) (i : Nat) (b : Block)
    (hvalid : validate_chain H chain = true)
    (hb : chain[i]? = some b) (d' p' : String)
    (hhash : H b.index b.timestamp d' p' ≠ b.hash) :
    (1 ≤ i → p' ≠ b.previous_hash →
      first_invalid_index H (tamperRederive H chain i d' p') = some i ∧
      validate_chain H (tamperRederive H chain i d' p') = false) ∧
    ((i = 0 ∨ p' = b.previous_hash) → i + 1 < chain.length →
      first_invalid_index H (tamperRederive H chain i d' p') = some (i + 1) ∧
      validate_chain H (tamperRederive H chain i d' p') = false) := by
  obtain ⟨hilen, hbi⟩ := List.getElem?_eq_some.1 hb
  set nb := mkBlock H b.index b.timestamp d' p' with hnbdef
  have htr : tamperRederive H chain i d' p' = chain.set i nb := by
    rw [tamperRederive, hb]
  have hget : ∀ j : Nat, (chain.set i nb)[j]? =
      if i = j then some nb else chain[j]? := by
    intro j
    by_cases hij : i = j
    · subst hij
      rw [List.getElem?_set]
      simp [hilen]
    · rw [List.getElem?_set]
      simp [hij]
  have hpairs := validate_chain_ok H chain hvalid
  have hnbprev : nb.previous_hash = p' := rfl
  have hnbh : nb.hash = H b.index b.timestamp d' p' := rfl
  constructor
  · intro hi1 hp'
    have hi1len : i - 1 < chain.length := by omega
    obtain ⟨a, ha⟩ : ∃ a, chain[i-1]? = some a :=
      ⟨_, List.getElem?_eq_getElem hi1len⟩
    have hab : blockOk H a b :=
      hpairs (i-1) a b ha (by rw [show i - 1 + 1 = i by omega]; exact hb)
    have htb : (chain.set i nb)[i-1]? = some a := by
      rw [hget, if_neg (by omega)]
      exact ha
    have hti : (chain.set i nb)[(i-1)+1]? = some nb := by
      rw [show i - 1 + 1 = i by omega, hget, if_pos rfl]
    have hnot : ¬ blockOk H a nb := by
      intro hok
      exact hp' (by rw [← hnbprev, hok.2, ← hab.2])
    have hlt : ∀ (j : Nat) (b' c' : Block), j < i - 1 →
        (chain.set i nb)[j]? = some b' → (chain.set i nb)[j+1]? = some c' →
        blockOk H b' c' := by
      intro j b' c' hj hb' hc'
      rw [hget, if_neg (by omega)] at hb'
      rw [hget, if_neg (by omega)] at hc'
      exact hpairs j b' c' hb' hc'
    have hfirst := first_invalid_index_pair H (chain.set i nb) (i-1) a nb
      htb hti hnot hlt
    rw [show i - 1 + 1 = i by omega] at hfirst
    rw [htr]
    exact ⟨hfirst, validate_chain_eq_false_of_first_invalid H _ _ hfirst⟩
  · intro hcase hsucc
    obtain ⟨c, hc⟩ : ∃ c, chain[i+1]? = some c :=
      ⟨_, List.getElem?_eq_getElem hsucc⟩
    have hbc : blockOk H b c := hpairs i b c hb hc
    have hti : (chain.set i nb)[i]? = some nb := by
      rw [hget, if_pos rfl]
    have htc : (chain.set i nb)[i+1]? = some c := by
      rw [hget, if_neg (by omega)]
      exact hc
    have hnot : ¬ blockOk H nb c := by
      intro hok
      apply hhash
      rw [← hnbh, ← hok.2, hbc.2]
    have hlt : ∀ (j : Nat) (b' c' : Block), j < i →
        (chain.set i nb)[j]? = some b' → (chain.set i nb)[j+1]? = some c' →
        blockOk H b' c' := by
      intro j b' c' hj hb' hc'
      rw [hget, if_neg (by omega)] at hb'
      by_cases hji : j + 1 = i
      · rw [hget, if_pos hji.symm] at hc'
        injection hc' with hc'
        subst hc'
        rcases hcase with h0 | hpeq
        · omega
        · have hab : blockOk H b' b := hpairs j b' b hb' (by rw [hji]; exact hb)
          exact ⟨rfl, by rw [hnbprev, hpeq, hab.2]⟩
      · rw [hget, if_neg (fun hh => hji hh.symm)] at hc'
        exact hpairs j b' c' hb' hc'
    have hfirst := first_invalid_index_pair H (chain.set i nb) i nb c
      hti htc hnot hlt
    rw [htr]
    exact ⟨hfirst, validate_chain_eq_false_of_first_invalid H _ _ hfirst⟩

/-- C1 counterexample to the claim as stated: on a fresh one-block chain,
re-deriving the Genesis block from a flipped payload leaves `validate()`
true (the loop starts at index 1 and never checks block 0), and on a valid
two-block chain, re-deriving the last block from a flipped payload also
leaves `validate()` true — even though both alterations change the block's
hash. -/
theorem tamper_undetected_counterexample :
    validate_chain testHash [gBlockA] = true ∧
    tamperRederive testHash [gBlockA] 0 ("B") ("0") =
      [mkBlock testHash 0 0 ("B") ("0")] ∧
    ("B") ≠ ("A") ∧
    (mkBlock testHash 0 0 ("B") ("0")).hash ≠ gBlockA.hash ∧
    validate_chain testHash (tamperRederive testHash [gBlockA] 0 ("B") ("0")) =
      true ∧
    validate_chain testHash cexChain = true ∧
    ("X") ≠ blockD.data ∧
    (mkBlock testHash 1 0 ("X") (gBlockA.hash)).hash ≠ blockD.hash ∧
    validate_chain testHash
      (tamperRederive testHash cexChain 1 ("X") (gBlockA.hash)) = true := by
  decide

/-- Witness for C1 (amended) at a concrete input: the two-block fixture
chain, tampering block 1 with payload "Y" and previous-hash "Z". -/
theorem validate_chain_detects_rederived_tamper_witness :
    validate_chain testHash cexChain = true ∧
    cexChain[1]? = some blockD ∧
    testHash blockD.index blockD.timestamp ("Y") ("Z") ≠ blockD.hash ∧
    ((1 ≤ 1 → ("Z") ≠ blockD.previous_hash →
        first_invalid_index testHash
          (tamperRederive testHash cexChain 1 ("Y") ("Z")) = some 1 ∧
        validate_chain testHash
          (tamperRederive testHash cexChain 1 ("Y") ("Z")) = false) ∧
      ((1 = 0 ∨ ("Z") = blockD.previous_hash) → 1 + 1 < cexChain.length →
        first_invalid_index testHash
          (tamperRederive testHash cexChain 1 ("Y") ("Z")) = some (1 + 1) ∧
        validate_chain testHash
          (tamperRederive testHash cexChain 1 ("Y") ("Z")) = false)) :=
  ⟨by decide, by decide, by decide,
   validate_chain_detects_rederived_tamper testHash cexChain 1 blockD
     (by decide) (by decide) ("Y") ("Z") (by decide)⟩

/-! ## C5: append -/

/-- C5 (amended).  Appending to a non-empty ledger always yields a block whose
`previous_hash` is the prior tail's hash, whatever the wall-clock timestamp
`t`; the new block becomes the tail.  Its `index`, however, is
`len(self.chain)`, which equals `tail.index + 1` exactly when the tail's
index is already `length - 1` (true of every chain the ledger builds itself,
but not of arbitrary hydrated chains). -/
theorem add_block_spec (H : HashFn) (chain : List Block) (tail : Block)
    (htail : chain.getLast? = some tail) (data : String) (t : Nat) :
    ∃ nb, add_block H chain data t = some (nb, chain ++ [nb]) ∧
      nb.previous_hash = tail.hash ∧
      nb.index = chain.length ∧
      nb.timestamp = t ∧
      get_latest_block (chain ++ [nb]) = some nb ∧
      (tail.index + 1 = chain.length → nb.index = tail.index + 1) := by
  refine ⟨mkBlock H chain.length t data tail.hash, ?_, rfl, rfl, rfl, ?_, ?_⟩
  · simp [add_block, htail]
  · exact List.getLast?_concat _
  · intro h
    simpa [mkBlock] using h.symm

/-- C5 counterexample to the claim as stated: a hydrated one-block chain
whose only block carries index 5 (as the store can persist) gets a new block
of index `len(chain) = 1`, not `tail.index + 1 = 6`. -/
theorem add_block_index_not_tail_succ :
    (add_block testHash [mkBlock testHash 5 0 ("d") ("0")] ("x") 3).map
      (fun r => r.1.index) = some 1 ∧
    (get_latest_block [mkBlock testHash 5 0 ("d") ("0")]).map Block.index =
      some 5 ∧
    (1 : Nat) ≠ 5 + 1 := by
  decide

/-- Witness for C5 (amended) at a concrete input: the one-block fixture. -/
theorem add_block_spec_witness :
    ([gBlockA].getLast? = some gBlockA) ∧
    (∃ nb, add_block testHash [gBlockA] ("P") 5 =
        some (nb, [gBlockA] ++ [nb]) ∧
      nb.previous_hash = gBlockA.hash ∧
      nb.index = [gBlockA].length ∧
      nb.timestamp = 5 ∧
      get_latest_block ([gBlockA] ++ [nb]) = some nb ∧
      (gBlockA.index + 1 = [gBlockA].length → nb.index = gBlockA.index + 1)) :=
  ⟨by decide, add_block_spec testHash [gBlockA] gBlockA (by decide) ("P") 5⟩

/-! ## C4: failed backend persist during append -/

/-- C4.  When the store's put raises during `add_block`, the exception is
surfaced — but the in-memory chain was appended to first and is not rolled
back: it is one block longer and its tail is the new block, contradicting
the required atomicity ("failed append must leave the Ledger's tail
unchanged"). -/
theorem add_block_db_failure_mutates_chain (H : HashFn) (chain : List Block)
    (tail : Block) (htail : chain.getLast? = some tail) (data : String)
    (t : Nat) :
    ∃ nb, add_block_with_db H chain data t true =
        some (chain ++ [nb], Except.error ("database error")) ∧
      (chain ++ [nb]).length = chain.length + 1 ∧
      get_latest_block (chain ++ [nb]) = some nb ∧
      chain ++ [nb] ≠ chain := by
  refine ⟨mkBlock H chain.length t data tail.hash, ?_, by simp,
    List.getLast?_concat _, ?_⟩
  · simp [add_block_with_db, htail]
  · intro h
    have hlen := congrArg List.length h
    simp at hlen

/-- Witness for C4 at a concrete input: the one-block fixture with a raising
store. -/
theorem add_block_db_failure_mutates_chain_witness :
    ([gBlockA].getLast? = some gBlockA) ∧
    (∃ nb, add_block_with_db testHash [gBlockA] ("P") 5 true =
        some ([gBlockA] ++ [nb], Except.error ("database error")) ∧
      ([gBlockA] ++ [nb]).length = [gBlockA].length + 1 ∧
      get_latest_block ([gBlockA] ++ [nb]) = some nb ∧
      [gBlockA] ++ [nb] ≠ [gBlockA]) :=
  ⟨by decide,
   add_block_db_failure_mutates_chain testHash [gBlockA] gBlockA (by decide)
     ("P") 5⟩

/-! ## C9: fresh ledger -/

/-- C9.  A freshly created ledger (no database rows, no chain file) holds
exactly the Genesis block: one block of index 0 with the "0" sentinel as
`previous_hash`, and `validate()` is true on it. -/
theorem fresh_ledger_genesis (H : HashFn) (t : Nat) :
    blockchain_init_no_db H t none = [create_genesis_block H t] ∧
    (blockchain_init_no_db H t none).length = 1 ∧
    (create_genesis_block H t).index = 0 ∧
    (create_genesis_block H t).previous_hash = ("0") ∧
    validate_chain H (blockchain_init_no_db H t none) = true :=
  ⟨rfl, rfl, rfl, rfl, rfl⟩

/-! ## C10: empty JSON list in the fallback file -/

/-- C10.  A chain file holding the empty JSON list is accepted as a
successful load by the constructor (no database): the chain ends up with
zero blocks, no Genesis block is created, and `get_latest` hits its
error branch (`chain[-1]` on an empty list). -/
theorem empty_json_list_accepted (H : HashFn) (t : Nat) :
    blockchain_init_no_db H t (some []) = [] ∧
    (blockchain_init_no_db H t (some [])).length = 0 ∧
    get_latest_block (blockchain_init_no_db H t (some [])) = none :=
  ⟨rfl, rfl, rfl⟩

/-! ## C7: repair only with exclusivity -/

/-- C7 counterexample to the claim as stated: off Render (local development,
`RENDER` unset), a worker that failed to acquire the lock still clears a
non-empty invalid chain's persisted blocks. -/
theorem startup_repairs_without_lock_off_render :
    startup_repair_clears false false false 1 = true ∧
    startup_store_after false false false [⟨0, 0, ("d"), ("0"), ("h")⟩] = [] ∧
    ([(⟨0, 0, ("d"), ("0"), ("h")⟩ : StoredBlock)] : List StoredBlock) ≠ [] := by
  decide

/-- C7 (amended).  On Render, a worker that does not hold the cross-process
lock never repairs: whatever the validation outcome and chain length, the
persisted blocks are left untouched and no fresh Genesis is created; the
process proceeds with the possibly-invalid chain.  (Off Render the code
deliberately repairs regardless of the lock, as the counterexample shows.) -/
theorem startup_no_repair_without_lock_on_render (valid : Bool)
    (store : List StoredBlock) :
    startup_repair_clears true false valid store.length = false ∧
    startup_store_after true false valid store = store := by
  constructor
  · simp [startup_repair_clears]
  · simp [startup_store_after, startup_repair_clears]

/-! ## C6: hydration asymmetry -/

/-- The file-fallback `from_dict` pass raises at the first row whose stored
hash does not match its recomputation. -/
theorem map_from_dict_error_at_first (H : HashFn) :
    ∀ rows : List StoredBlock, rows.any (tampered_row H) = true →
      ∃ r, rows.find? (tampered_row H) = some r ∧
        map_from_dict H rows = Except.error r.index := by
  intro rows
  induction rows with
    | nil => intro h; simp at h
    | cons r rest ih =>
        intro hbad
        by_cases hr : tampered_row H r = true
        · refine ⟨r, List.find?_cons_of_pos _ hr, ?_⟩
          have hne : H r.index r.timestamp r.data r.previous_hash ≠ r.hash := by
            rw [tampered_row, bne_iff_ne] at hr
            exact hr
          have herr : from_dict H r = Except.error r.index := by
            simp [from_dict, mkBlock, hne]
          simp [map_from_dict, herr]
        · have hr' : tampered_row H r = false := by
            cases h : tampered_row H r
            · rfl
            · exact absurd h hr
          have hrest : rest.any (tampered_row H) = true := by
            rw [List.any_cons, hr'] at hbad
            simpa using hbad
          obtain ⟨r', hfind, herr⟩ := ih hrest
          refine ⟨r', by rw [List.find?_cons_of_neg _ hr]; exact hfind, ?_⟩
          have heq : H r.index r.timestamp r.data r.previous_hash = r.hash := by
            rw [tampered_row] at hr'
            simpa using hr'
          have hok : from_dict H r =
              Except.ok (mkBlock H r.index r.timestamp r.data r.previous_hash) := by
            simp [from_dict, mkBlock, heq]
          simp [map_from_dict, hok, herr]

/-- C6.  For a persisted chain containing a row whose stored hash differs
from the recomputation over its fields, the durable-backend loader completes
and returns a chain whose hash fields are the stored values verbatim (no
recomputation check), while the file-fallback loader's `from_dict` pass
raises at the first mismatching row (error value: that row's block index). -/
theorem hydration_asymmetry (H : HashFn) (rows : List StoredBlock)
    (hbad : rows.any (tampered_row H) = true) :
    (∃ loaded, load_chain_from_database H rows = some loaded ∧
      loaded.length = rows.length ∧
      ∀ (j : Nat) (r : StoredBlock), rows[j]? = some r →
        ∃ b, loaded[j]? = some b ∧ b.hash = r.hash) ∧
    (∃ r, rows.find? (tampered_row H) = some r ∧
      map_from_dict H rows = Except.error r.index) := by
  constructor
  · have hne : ¬ rows.isEmpty = true := by
      rw [List.isEmpty_iff]
      intro h
      subst h
      simp at hbad
    refine ⟨_, by rw [load_chain_from_database, if_neg hne], by simp, ?_⟩
    intro j r hj
    refine ⟨{ mkBlock H r.index r.timestamp r.data r.previous_hash with
      hash := r.hash }, ?_, rfl⟩
    rw [List.getElem?_map, hj]
    rfl
  · exact map_from_dict_error_at_first H rows hbad

/-- A stored row whose hash field does not match its recomputation under
`testHash`. -/
def wrongRow : StoredBlock :=
  ⟨0, 0, ("d"), ("0"), ("WRONG")⟩

/-- Witness for C6 at a concrete input: a one-row store whose hash field is
wrong. -/
theorem hydration_asymmetry_witness :
    ([wrongRow].any (tampered_row testHash) = true) ∧
    ((∃ loaded, load_chain_from_database testHash [wrongRow] = some loaded ∧
      loaded.length = [wrongRow].length ∧
      ∀ (j : Nat) (r : StoredBlock), [wrongRow][j]? = some r →
        ∃ b, loaded[j]? = some b ∧ b.hash = r.hash) ∧
    (∃ r, [wrongRow].find? (tampered_row testHash) = some r ∧
      map_from_dict testHash [wrongRow] = Except.error r.index)) :=
  ⟨by decide, hydration_asymmetry testHash [wrongRow] (by decide)⟩

/-! ## C8: idempotent block upsert -/

theorem map_fix_of_mem {α : Type} (l : List α) (f : α → α)
    (h : ∀ x ∈ l, f x = x) : l.map f = l := by
  induction l with
  | nil => rfl
  | cons a rest ih =>
      simp [h a (by simp), ih (fun x hx => h x (by simp [hx]))]

/-- C8.  Re-applying the `blockchain_blocks` upsert with the same index and
identical field values leaves the store exactly as after one application —
no duplicate row, unchanged number of persisted blocks. -/
theorem save_blockchain_block_idempotent (store : List StoredBlock)
    (r : StoredBlock) :
    save_blockchain_block (save_blockchain_block store r) r =
      save_blockchain_block store r ∧
    (save_blockchain_block (save_blockchain_block store r) r).length =
      (save_blockchain_block store r).length := by
  have hfr : (fun x : StoredBlock => if x.index == r.index then r else x) r
      = r := by
    simp
  have hmem : ∀ x ∈ save_blockchain_block store r,
      (if x.index == r.index then r else x) = x := by
    intro x hx
    rw [save_blockchain_block] at hx
    by_cases hany : store.any (fun y => y.index == r.index) = true
    · rw [if_pos hany] at hx
      obtain ⟨y, _, hyx⟩ := List.mem_map.1 hx
      by_cases hy : (y.index == r.index) = true
      · rw [if_pos hy] at hyx
        rw [← hyx]
        simp
      · rw [if_neg hy] at hyx
        rw [← hyx, if_neg hy]
    · rw [if_neg hany] at hx
      have hall := List.any_eq_false.1 (by
        cases h : store.any (fun y => y.index == r.index)
        · rfl
        · exact absurd h hany)
      rcases List.mem_append.1 hx with hx | hx
      · rw [if_neg (hall x hx)]
      · rw [List.mem_singleton.1 hx]
        simp
  have hany1 : (save_blockchain_block store r).any
      (fun x => x.index == r.index) = true := by
    rw [save_blockchain_block]
    by_cases hany : store.any (fun y => y.index == r.index) = true
    · rw [if_pos hany]
      obtain ⟨y, hy, hyb⟩ := List.any_eq_true.1 hany
      refine List.any_eq_true.2 ⟨r, ?_, by simp⟩
      exact List.mem_map.2 ⟨y, hy, by rw [if_pos hyb]⟩
    · rw [if_neg hany]
      exact List.any_eq_true.2 ⟨r, by simp, by simp⟩
  have hmain : save_blockchain_block (save_blockchain_block store r) r =
      save_blockchain_block store r := by
    conv =>
      lhs
      rw [save_blockchain_block]
    rw [if_pos hany1]
    exact map_fix_of_mem _ _ hmem
  exact ⟨hmain, by rw [hmain]⟩

end SecureCloudX
